import Mathlib

/-!
Shallow embedding of the dag-cbor link extractor (src/src/lib.rs).

The Rust code reads from a `Read + Seek` stream; the tests drive it with an
in-memory `io::Cursor`.  We model the stream as the list of bytes that remain
in front of the cursor (`Bytes`), with bytes as `Nat` values.  A forward
`seek` on a `Cursor` succeeds even past the end of the buffer and later reads
simply hit end-of-file, so a seek of `n` is modelled as `List.drop n` (which
clamps at the empty list, after which every read fails with `UnexpectedEof`,
exactly like a cursor positioned past the end).

Rust slice indexing, `split_at` and `try_from(..).unwrap()` can panic; those
operations are modelled with an explicit `crash` outcome so that panic
freedom is a provable statement rather than an assumption.

The `IoError` variant of the Rust error enum can only be produced by a
transport error other than a short read; an in-memory cursor never produces
one, so the model omits it.
-/

/-- A byte stream / byte buffer: the bytes still in front of the cursor. -/
abbrev Bytes := List Nat

/-- Model of `pub type Hash = [u8; 32]`: the 32 digest bytes. -/
abbrev Hash := List Nat

/-- A link as pushed into the output vector: `(codec, hash)`. -/
abbrev Link := Nat × Hash

/-- Model of `enum ParseError` (src/src/lib.rs lines 13-34).  `IoError` is
omitted: on an in-memory cursor the only I/O failure is a short read, which
the `From<io::Error>` instance normalises to `UnexpectedEof`. -/
inductive ParseError where
  | UnexpectedEof
  | UnexpectedCode (b : Nat)
  | UnknownTag (b : Nat)
  | InvalidCidPrefix (b : Nat)
  | LengthOutOfRange
  | InvalidVarint
  | InvalidCidVersion
  | InvalidHashAlgorithm
  | InvalidHashLength
  deriving DecidableEq, Repr

/-- Result of a slice-level computation that can also panic (`crash`). -/
inductive PRes (α : Type) where
  | crash
  | err (e : ParseError)
  | ok (a : α)
  deriving DecidableEq, Repr

/-- Result of a `references` traversal.  Every variant carries the state of
the caller-supplied output vector at the moment the call ends.  `fuelOut` is
an artefact of the shallow embedding: the Rust original recurses directly on
the stream, the model spends one unit of fuel per recursive step. -/
inductive RRes where
  | crash (res : List Link)
  | fuelOut (res : List Link)
  | err (e : ParseError) (res : List Link)
  | ok (rest : Bytes) (res : List Link)
  deriving DecidableEq, Repr

/-- The output-vector component of a traversal result. -/
def resOf : RRes → List Link
  | .crash res => res
  | .fuelOut res => res
  | .err _ res => res
  | .ok _ res => res

/-- `read_u8` (lines 61-65): read one byte, `UnexpectedEof` on end of input. -/
def read_u8 : Bytes → Except ParseError (Nat × Bytes)
  | [] => .error .UnexpectedEof
  | b :: rest => .ok (b, rest)

/-- Big-endian value of a byte sequence (`uNN::from_be_bytes`). -/
def beVal (bs : Bytes) : Nat := bs.foldl (fun acc b => acc * 256 + b) 0

/-- `read_exact` of `k` bytes interpreted big-endian: common model of
`read_u16` / `read_u32` / `read_u64` (lines 68-86). -/
def read_exact (k : Nat) (input : Bytes) : Except ParseError (Nat × Bytes) :=
  if k ≤ input.length then .ok (beVal (input.take k), input.drop k)
  else .error .UnexpectedEof

/-- `read_u16` (lines 68-72). -/
def read_u16 : Bytes → Except ParseError (Nat × Bytes) := read_exact 2

/-- `read_u32` (lines 75-79). -/
def read_u32 : Bytes → Except ParseError (Nat × Bytes) := read_exact 4

/-- `read_u64` (lines 82-86). -/
def read_u64 : Bytes → Except ParseError (Nat × Bytes) := read_exact 8

/-- `read_bytes` (lines 113-121): read exactly `len` bytes, `UnexpectedEof`
if fewer remain.  (The 16 KiB cap only bounds the initial allocation; on
success the buffer always holds exactly `len` bytes.) -/
def read_bytes (input : Bytes) (len : Nat) : Except ParseError (Bytes × Bytes) :=
  if len ≤ input.length then .ok (input.take len, input.drop len)
  else .error .UnexpectedEof

/-- Loop body of `parse_u64_varint` (lines 92-107).  `value` is a `u64`, so
the shifted bits are truncated modulo `2 ^ 64` before being or-ed in; reading
`input[0]` from an empty slice is a panic (`crash`).  The shift-bound test
happens after `shift += 7`, mirroring the source. -/
def parse_u64_varint_go (value shift : Nat) : Bytes → PRes (Nat × Bytes)
  | [] => .crash
  | byte :: input =>
    if byte &&& 0x80 = 0 then .ok (value ||| (byte &&& 0x7F) <<< shift % 2 ^ 64, input)
    else if 64 ≤ shift + 7 then .err .InvalidVarint
    else parse_u64_varint_go (value ||| (byte &&& 0x7F) <<< shift % 2 ^ 64) (shift + 7) input

/-- `parse_u64_varint` (lines 88-110). -/
def parse_u64_varint (input : Bytes) : PRes (Nat × Bytes) :=
  parse_u64_varint_go 0 0 input

/-- Rust `split_at 2` on a slice: panics when fewer than 2 bytes remain. -/
def splitAt2 (l : Bytes) : PRes (Bytes × Bytes) :=
  if 2 ≤ l.length then .ok (l.take 2, l.drop 2) else .crash

/-- `<[u8; 32]>::try_from`: succeeds exactly on 32-byte slices. -/
def toHash32 (l : Bytes) : Option Hash :=
  if l.length = 32 then some l else none

/-- Tail of `read_link` from the codec varint on (lines 148-157): decode the
codec, check the multihash header `{0x1e, 0x20}`, check the 32-byte digest.
The final `try_from(..).unwrap()` is the `none` (`crash`) branch. -/
def read_link_tail (rest : Bytes) : PRes (Nat × Hash) :=
  match parse_u64_varint rest with
  | .crash => .crash
  | .err e => .err e
  | .ok (codec, rest) =>
    match splitAt2 rest with
    | .crash => .crash
    | .err e => .err e
    | .ok (mh_header, rest) =>
      if mh_header ≠ [0x1e, 0x20] then .err .InvalidHashAlgorithm
      else if rest.length ≠ 32 then .err .InvalidHashLength
      else
        match toHash32 rest with
        | some h => .ok (codec, h)
        | none => .crash

/-- `read_link` (lines 124-159): byte-string tag `0x58`, nonzero length,
exact read of the CID buffer, zero multibase marker, total length at least
32, version pair `{0, 1}` (taken from the *front* of the buffer, marker
included), then `read_link_tail`.  `bytes[0]` on an empty buffer is a panic. -/
def read_link (input : Bytes) : PRes ((Nat × Hash) × Bytes) :=
  match read_u8 input with
  | .error e => .err e
  | .ok (ty, input) =>
    if ty ≠ 0x58 then .err (.UnknownTag ty)
    else
      match read_u8 input with
      | .error e => .err e
      | .ok (len, input) =>
        if len = 0 then .err .LengthOutOfRange
        else
          match read_bytes input len with
          | .error e => .err e
          | .ok (bytes, input) =>
            match bytes with
            | [] => .crash
            | b0 :: _ =>
              if b0 ≠ 0 then .err (.InvalidCidPrefix b0)
              else if bytes.length < 32 then .err .LengthOutOfRange
              else
                match splitAt2 bytes with
                | .crash => .crash
                | .err e => .err e
                | .ok (version_header, rest) =>
                  if version_header ≠ [0, 1] then .err .InvalidCidVersion
                  else
                    match read_link_tail rest with
                    | .crash => .crash
                    | .err e => .err e
                    | .ok ch => .ok (ch, input)

/-- `read_len` (lines 162-177): resolve the additional-information selector
to a length.  On a 64-bit host `usize::MAX` is `2 ^ 64 - 1`, so the
`LengthOutOfRange` test of the 8-byte case is kept verbatim. -/
def read_len (input : Bytes) (major : Nat) : Except ParseError (Nat × Bytes) :=
  if major ≤ 0x17 then .ok (major, input)
  else if major = 0x18 then read_u8 input
  else if major = 0x19 then read_u16 input
  else if major = 0x1a then read_u32 input
  else if major = 0x1b then
    match read_u64 input with
    | .error e => .error e
    | .ok (len, input) =>
      if 2 ^ 64 - 1 < len then .error .LengthOutOfRange else .ok (len, input)
  else .error (.UnexpectedCode major)

/-- The traversal jobs of `references` (lines 185-295): one data item, the
loop over `n` children of a definite array, the loop over `n` pairs of a
definite map, and the two indefinite-length loops. -/
inductive Job where
  | item
  | arr (n : Nat)
  | map (n : Nat)
  | indefArr
  | indefMap
  deriving DecidableEq, Repr

/-- The recursive traversal of `references` (lines 185-295), fuel-indexed.
`Job.item` is the body of the Rust function: read the major byte, dispatch
on its range, seek past skippable payloads (`List.drop`, see the header
comment on cursor seeks), recurse into containers and tagged values, and on
tag 42 push the result of `read_link`.  The loop jobs spend one unit of fuel
per iteration; the Rust original is bounded by the structure of the stream
instead. -/
def refsGo : Nat → Job → Bytes → List Link → RRes
  | 0, _, _, res => .fuelOut res
  | fuel + 1, .item, input, res =>
    match read_u8 input with
    | .error e => .err e res
    | .ok (major, input) =>
      -- Major type 0: an unsigned integer
      if major ≤ 0x17 then .ok input res
      else if major = 0x18 then .ok (input.drop 1) res
      else if major = 0x19 then .ok (input.drop 2) res
      else if major = 0x1a then .ok (input.drop 4) res
      else if major = 0x1b then .ok (input.drop 8) res
      -- Major type 1: a negative integer
      else if 0x20 ≤ major ∧ major ≤ 0x37 then .ok input res
      else if major = 0x38 then .ok (input.drop 1) res
      else if major = 0x39 then .ok (input.drop 2) res
      else if major = 0x3a then .ok (input.drop 4) res
      else if major = 0x3b then .ok (input.drop 8) res
      -- Major type 2: a byte string
      else if 0x40 ≤ major ∧ major ≤ 0x5b then
        match read_len input (major - 0x40) with
        | .error e => .err e res
        | .ok (len, input) => .ok (input.drop len) res
      -- Major type 3: a text string
      else if 0x60 ≤ major ∧ major ≤ 0x7b then
        match read_len input (major - 0x60) with
        | .error e => .err e res
        | .ok (len, input) => .ok (input.drop len) res
      -- Major type 4: an array of data items
      else if 0x80 ≤ major ∧ major ≤ 0x9b then
        match read_len input (major - 0x80) with
        | .error e => .err e res
        | .ok (len, input) => refsGo fuel (.arr len) input res
      -- Major type 4: indefinite length
      else if major = 0x9f then refsGo fuel .indefArr input res
      -- Major type 5: a map of pairs of data items
      else if 0xa0 ≤ major ∧ major ≤ 0xbb then
        match read_len input (major - 0xa0) with
        | .error e => .err e res
        | .ok (len, input) => refsGo fuel (.map len) input res
      -- Major type 5: indefinite length
      else if major = 0xbf then refsGo fuel .indefMap input res
      -- Major type 6: semantic tag
      else if major = 0xd8 then
        match read_u8 input with
        | .error e => .err e res
        | .ok (tag, input) =>
          if tag = 42 then
            match read_link input with
            | .crash => .crash res
            | .err e => .err e res
            | .ok (link, input) => .ok input (res ++ [link])
          else refsGo fuel .item input res
      -- Major type 7: simple values and floats
      else if 0xf4 ≤ major ∧ major ≤ 0xf7 then .ok input res
      else if major = 0xf8 then .ok (input.drop 1) res
      else if major = 0xf9 then .ok (input.drop 2) res
      else if major = 0xfa then .ok (input.drop 4) res
      else if major = 0xfb then .ok (input.drop 8) res
      else .err (.UnexpectedCode major) res
  | _ + 1, .arr 0, input, res => .ok input res
  | fuel + 1, .arr (n + 1), input, res =>
    match refsGo fuel .item input res with
    | .ok input res => refsGo fuel (.arr n) input res
    | r => r
  | _ + 1, .map 0, input, res => .ok input res
  | fuel + 1, .map (n + 1), input, res =>
    match refsGo fuel .item input res with
    | .ok input res =>
      match refsGo fuel .item input res with
      | .ok input res => refsGo fuel (.map n) input res
      | r => r
    | r => r
  | fuel + 1, .indefArr, input, res =>
    match read_u8 input with
    | .error e => .err e res
    | .ok (major, rest) =>
      if major = 0xff then .ok rest res
      else
        -- `seek(-1)` then recurse: the peeked byte is re-read, so the child
        -- runs on the un-consumed `input`.
        match refsGo fuel .item input res with
        | .ok input res => refsGo fuel .indefArr input res
        | r => r
  | fuel + 1, .indefMap, input, res =>
    match read_u8 input with
    | .error e => .err e res
    | .ok (major, rest) =>
      if major = 0xff then .ok rest res
      else
        match refsGo fuel .item input res with
        | .ok input res =>
          match refsGo fuel .item input res with
          | .ok input res => refsGo fuel .indefMap input res
          | r => r
        | r => r

/-- `references` (lines 185-295): extract all links of one data item. -/
def references (fuel : Nat) (input : Bytes) (res : List Link) : RRes :=
  refsGo fuel .item input res

/-! ### Unfolding equations for the traversal

`refsGo` is a large definition; its automatically generated unfolding lemmas
are unwieldy, so the equations needed later are stated once, definitionally. -/

theorem refsGo_zero (job : Job) (input : Bytes) (res : List Link) :
    refsGo 0 job input res = .fuelOut res := rfl

theorem refsGo_item_nil (f : Nat) (res : List Link) :
    refsGo (f + 1) .item [] res = .err .UnexpectedEof res := rfl

set_option maxHeartbeats 1000000 in
set_option maxRecDepth 8000 in
theorem refsGo_item_cons (f b : Nat) (t : Bytes) (res : List Link) :
    refsGo (f + 1) .item (b :: t) res =
      (if b ≤ 0x17 then .ok t res
      else if b = 0x18 then .ok (t.drop 1) res
      else if b = 0x19 then .ok (t.drop 2) res
      else if b = 0x1a then .ok (t.drop 4) res
      else if b = 0x1b then .ok (t.drop 8) res
      else if 0x20 ≤ b ∧ b ≤ 0x37 then .ok t res
      else if b = 0x38 then .ok (t.drop 1) res
      else if b = 0x39 then .ok (t.drop 2) res
      else if b = 0x3a then .ok (t.drop 4) res
      else if b = 0x3b then .ok (t.drop 8) res
      else if 0x40 ≤ b ∧ b ≤ 0x5b then
        match read_len t (b - 0x40) with
        | .error e => .err e res
        | .ok (len, input) => .ok (input.drop len) res
      else if 0x60 ≤ b ∧ b ≤ 0x7b then
        match read_len t (b - 0x60) with
        | .error e => .err e res
        | .ok (len, input) => .ok (input.drop len) res
      else if 0x80 ≤ b ∧ b ≤ 0x9b then
        match read_len t (b - 0x80) with
        | .error e => .err e res
        | .ok (len, input) => refsGo f (.arr len) input res
      else if b = 0x9f then refsGo f .indefArr t res
      else if 0xa0 ≤ b ∧ b ≤ 0xbb then
        match read_len t (b - 0xa0) with
        | .error e => .err e res
        | .ok (len, input) => refsGo f (.map len) input res
      else if b = 0xbf then refsGo f .indefMap t res
      else if b = 0xd8 then
        match read_u8 t with
        | .error e => .err e res
        | .ok (tag, input) =>
          if tag = 42 then
            match read_link input with
            | .crash => .crash res
            | .err e => .err e res
            | .ok (link, input) => .ok input (res ++ [link])
          else refsGo f .item input res
      else if 0xf4 ≤ b ∧ b ≤ 0xf7 then .ok t res
      else if b = 0xf8 then .ok (t.drop 1) res
      else if b = 0xf9 then .ok (t.drop 2) res
      else if b = 0xfa then .ok (t.drop 4) res
      else if b = 0xfb then .ok (t.drop 8) res
      else .err (.UnexpectedCode b) res) := rfl

theorem refsGo_arr_zero (f : Nat) (input : Bytes) (res : List Link) :
    refsGo (f + 1) (.arr 0) input res = .ok input res := rfl

theorem refsGo_arr_succ (f n : Nat) (input : Bytes) (res : List Link) :
    refsGo (f + 1) (.arr (n + 1)) input res =
      (match refsGo f .item input res with
      | .ok input res => refsGo f (.arr n) input res
      | r => r) := rfl

theorem refsGo_map_zero (f : Nat) (input : Bytes) (res : List Link) :
    refsGo (f + 1) (.map 0) input res = .ok input res := rfl

theorem refsGo_map_succ (f n : Nat) (input : Bytes) (res : List Link) :
    refsGo (f + 1) (.map (n + 1)) input res =
      (match refsGo f .item input res with
      | .ok input res =>
        match refsGo f .item input res with
        | .ok input res => refsGo f (.map n) input res
        | r => r
      | r => r) := rfl

theorem refsGo_indefArr_nil (f : Nat) (res : List Link) :
    refsGo (f + 1) .indefArr [] res = .err .UnexpectedEof res := rfl

theorem refsGo_indefArr_cons (f b : Nat) (t : Bytes) (res : List Link) :
    refsGo (f + 1) .indefArr (b :: t) res =
      (if b = 0xff then .ok t res
      else
        match refsGo f .item (b :: t) res with
        | .ok input res => refsGo f .indefArr input res
        | r => r) := rfl

theorem refsGo_indefMap_nil (f : Nat) (res : List Link) :
    refsGo (f + 1) .indefMap [] res = .err .UnexpectedEof res := rfl

theorem refsGo_indefMap_cons (f b : Nat) (t : Bytes) (res : List Link) :
    refsGo (f + 1) .indefMap (b :: t) res =
      (if b = 0xff then .ok t res
      else
        match refsGo f .item (b :: t) res with
        | .ok input res =>
          match refsGo f .item input res with
          | .ok input res => refsGo f .indefMap input res
          | r => r
        | r => r) := rfl

theorem references_def (fuel : Nat) (input : Bytes) (res : List Link) :
    references fuel input res = refsGo fuel .item input res := rfl

/-! ### Dispatch lemmas: one per byte-range of the major-type table -/

theorem references_nil (f : Nat) (res : List Link) :
    references (f + 1) [] res = .err .UnexpectedEof res := rfl

theorem step_tiny {b : Nat} (h : b ≤ 0x17) (f : Nat) (t : Bytes) (res : List Link) :
    references (f + 1) (b :: t) res = .ok t res := by
  rw [references_def, refsGo_item_cons, if_pos h]

theorem step_neg_tiny {b : Nat} (h1 : 0x20 ≤ b) (h2 : b ≤ 0x37) (f : Nat) (t : Bytes)
    (res : List Link) : references (f + 1) (b :: t) res = .ok t res := by
  rw [references_def, refsGo_item_cons, if_neg (by omega : ¬b ≤ 0x17),
    if_neg (by omega : ¬b = 0x18), if_neg (by omega : ¬b = 0x19),
    if_neg (by omega : ¬b = 0x1a), if_neg (by omega : ¬b = 0x1b),
    if_pos (by omega : 0x20 ≤ b ∧ b ≤ 0x37)]

theorem step_skip1 {b : Nat} (h : b = 0x18 ∨ b = 0x38 ∨ b = 0xf8) (f : Nat) (t : Bytes)
    (res : List Link) : references (f + 1) (b :: t) res = .ok (t.drop 1) res := by
  rcases h with h | h | h <;> subst h <;> rfl

theorem step_skip2 {b : Nat} (h : b = 0x19 ∨ b = 0x39 ∨ b = 0xf9) (f : Nat) (t : Bytes)
    (res : List Link) : references (f + 1) (b :: t) res = .ok (t.drop 2) res := by
  rcases h with h | h | h <;> subst h <;> rfl

theorem step_skip4 {b : Nat} (h : b = 0x1a ∨ b = 0x3a ∨ b = 0xfa) (f : Nat) (t : Bytes)
    (res : List Link) : references (f + 1) (b :: t) res = .ok (t.drop 4) res := by
  rcases h with h | h | h <;> subst h <;> rfl

theorem step_skip8 {b : Nat} (h : b = 0x1b ∨ b = 0x3b ∨ b = 0xfb) (f : Nat) (t : Bytes)
    (res : List Link) : references (f + 1) (b :: t) res = .ok (t.drop 8) res := by
  rcases h with h | h | h <;> subst h <;> rfl

theorem step_simple {b : Nat} (h1 : 0xf4 ≤ b) (h2 : b ≤ 0xf7) (f : Nat) (t : Bytes)
    (res : List Link) : references (f + 1) (b :: t) res = .ok t res := by
  rw [references_def, refsGo_item_cons, if_neg (by omega : ¬b ≤ 0x17),
    if_neg (by omega : ¬b = 0x18), if_neg (by omega : ¬b = 0x19),
    if_neg (by omega : ¬b = 0x1a), if_neg (by omega : ¬b = 0x1b),
    if_neg (by omega : ¬(0x20 ≤ b ∧ b ≤ 0x37)),
    if_neg (by omega : ¬b = 0x38), if_neg (by omega : ¬b = 0x39),
    if_neg (by omega : ¬b = 0x3a), if_neg (by omega : ¬b = 0x3b),
    if_neg (by omega : ¬(0x40 ≤ b ∧ b ≤ 0x5b)),
    if_neg (by omega : ¬(0x60 ≤ b ∧ b ≤ 0x7b)),
    if_neg (by omega : ¬(0x80 ≤ b ∧ b ≤ 0x9b)),
    if_neg (by omega : ¬b = 0x9f),
    if_neg (by omega : ¬(0xa0 ≤ b ∧ b ≤ 0xbb)),
    if_neg (by omega : ¬b = 0xbf), if_neg (by omega : ¬b = 0xd8),
    if_pos (by omega : 0xf4 ≤ b ∧ b ≤ 0xf7)]

theorem step_bstr {b : Nat} (h1 : 0x40 ≤ b) (h2 : b ≤ 0x5b) (f : Nat) (t : Bytes)
    (res : List Link) :
    references (f + 1) (b :: t) res =
      match read_len t (b - 0x40) with
      | .error e => .err e res
      | .ok (len, t') => .ok (t'.drop len) res := by
  rw [references_def, refsGo_item_cons, if_neg (by omega : ¬b ≤ 0x17),
    if_neg (by omega : ¬b = 0x18), if_neg (by omega : ¬b = 0x19),
    if_neg (by omega : ¬b = 0x1a), if_neg (by omega : ¬b = 0x1b),
    if_neg (by omega : ¬(0x20 ≤ b ∧ b ≤ 0x37)),
    if_neg (by omega : ¬b = 0x38), if_neg (by omega : ¬b = 0x39),
    if_neg (by omega : ¬b = 0x3a), if_neg (by omega : ¬b = 0x3b),
    if_pos (by omega : 0x40 ≤ b ∧ b ≤ 0x5b)]

theorem step_tstr {b : Nat} (h1 : 0x60 ≤ b) (h2 : b ≤ 0x7b) (f : Nat) (t : Bytes)
    (res : List Link) :
    references (f + 1) (b :: t) res =
      match read_len t (b - 0x60) with
      | .error e => .err e res
      | .ok (len, t') => .ok (t'.drop len) res := by
  rw [references_def, refsGo_item_cons, if_neg (by omega : ¬b ≤ 0x17),
    if_neg (by omega : ¬b = 0x18), if_neg (by omega : ¬b = 0x19),
    if_neg (by omega : ¬b = 0x1a), if_neg (by omega : ¬b = 0x1b),
    if_neg (by omega : ¬(0x20 ≤ b ∧ b ≤ 0x37)),
    if_neg (by omega : ¬b = 0x38), if_neg (by omega : ¬b = 0x39),
    if_neg (by omega : ¬b = 0x3a), if_neg (by omega : ¬b = 0x3b),
    if_neg (by omega : ¬(0x40 ≤ b ∧ b ≤ 0x5b)),
    if_pos (by omega : 0x60 ≤ b ∧ b ≤ 0x7b)]

theorem step_arr {b : Nat} (h1 : 0x80 ≤ b) (h2 : b ≤ 0x9b) (f : Nat) (t : Bytes)
    (res : List Link) :
    references (f + 1) (b :: t) res =
      match read_len t (b - 0x80) with
      | .error e => .err e res
      | .ok (len, t') => refsGo f (.arr len) t' res := by
  rw [references_def, refsGo_item_cons, if_neg (by omega : ¬b ≤ 0x17),
    if_neg (by omega : ¬b = 0x18), if_neg (by omega : ¬b = 0x19),
    if_neg (by omega : ¬b = 0x1a), if_neg (by omega : ¬b = 0x1b),
    if_neg (by omega : ¬(0x20 ≤ b ∧ b ≤ 0x37)),
    if_neg (by omega : ¬b = 0x38), if_neg (by omega : ¬b = 0x39),
    if_neg (by omega : ¬b = 0x3a), if_neg (by omega : ¬b = 0x3b),
    if_neg (by omega : ¬(0x40 ≤ b ∧ b ≤ 0x5b)),
    if_neg (by omega : ¬(0x60 ≤ b ∧ b ≤ 0x7b)),
    if_pos (by omega : 0x80 ≤ b ∧ b ≤ 0x9b)]

theorem step_map {b : Nat} (h1 : 0xa0 ≤ b) (h2 : b ≤ 0xbb) (f : Nat) (t : Bytes)
    (res : List Link) :
    references (f + 1) (b :: t) res =
      match read_len t (b - 0xa0) with
      | .error e => .err e res
      | .ok (len, t') => refsGo f (.map len) t' res := by
  rw [references_def, refsGo_item_cons, if_neg (by omega : ¬b ≤ 0x17),
    if_neg (by omega : ¬b = 0x18), if_neg (by omega : ¬b = 0x19),
    if_neg (by omega : ¬b = 0x1a), if_neg (by omega : ¬b = 0x1b),
    if_neg (by omega : ¬(0x20 ≤ b ∧ b ≤ 0x37)),
    if_neg (by omega : ¬b = 0x38), if_neg (by omega : ¬b = 0x39),
    if_neg (by omega : ¬b = 0x3a), if_neg (by omega : ¬b = 0x3b),
    if_neg (by omega : ¬(0x40 ≤ b ∧ b ≤ 0x5b)),
    if_neg (by omega : ¬(0x60 ≤ b ∧ b ≤ 0x7b)),
    if_neg (by omega : ¬(0x80 ≤ b ∧ b ≤ 0x9b)),
    if_neg (by omega : ¬b = 0x9f),
    if_pos (by omega : 0xa0 ≤ b ∧ b ≤ 0xbb)]

theorem step_indefArr (f : Nat) (t : Bytes) (res : List Link) :
    references (f + 1) (0x9f :: t) res = refsGo f .indefArr t res := rfl

theorem step_indefMap (f : Nat) (t : Bytes) (res : List Link) :
    references (f + 1) (0xbf :: t) res = refsGo f .indefMap t res := rfl

theorem step_tag_nil (f : Nat) (res : List Link) :
    references (f + 1) [0xd8] res = .err .UnexpectedEof res := rfl

theorem step_tag42 (f : Nat) (t : Bytes) (res : List Link) :
    references (f + 1) (0xd8 :: 42 :: t) res =
      match read_link t with
      | .crash => .crash res
      | .err e => .err e res
      | .ok (link, rest) => .ok rest (res ++ [link]) := rfl

theorem step_tag_other {tag : Nat} (h : tag ≠ 42) (f : Nat) (t : Bytes) (res : List Link) :
    references (f + 1) (0xd8 :: tag :: t) res = references f t res := by
  rw [references_def, refsGo_item_cons, if_neg (by omega : ¬(0xd8 : Nat) ≤ 0x17),
    if_neg (by omega : ¬(0xd8 : Nat) = 0x18), if_neg (by omega : ¬(0xd8 : Nat) = 0x19),
    if_neg (by omega : ¬(0xd8 : Nat) = 0x1a), if_neg (by omega : ¬(0xd8 : Nat) = 0x1b),
    if_neg (by omega : ¬((0x20 : Nat) ≤ 0xd8 ∧ (0xd8 : Nat) ≤ 0x37)),
    if_neg (by omega : ¬(0xd8 : Nat) = 0x38), if_neg (by omega : ¬(0xd8 : Nat) = 0x39),
    if_neg (by omega : ¬(0xd8 : Nat) = 0x3a), if_neg (by omega : ¬(0xd8 : Nat) = 0x3b),
    if_neg (by omega : ¬((0x40 : Nat) ≤ 0xd8 ∧ (0xd8 : Nat) ≤ 0x5b)),
    if_neg (by omega : ¬((0x60 : Nat) ≤ 0xd8 ∧ (0xd8 : Nat) ≤ 0x7b)),
    if_neg (by omega : ¬((0x80 : Nat) ≤ 0xd8 ∧ (0xd8 : Nat) ≤ 0x9b)),
    if_neg (by omega : ¬(0xd8 : Nat) = 0x9f),
    if_neg (by omega : ¬((0xa0 : Nat) ≤ 0xd8 ∧ (0xd8 : Nat) ≤ 0xbb)),
    if_neg (by omega : ¬(0xd8 : Nat) = 0xbf),
    if_pos (by omega : (0xd8 : Nat) = 0xd8)]
  show (match read_u8 (tag :: t) with
    | .error e => RRes.err e res
    | .ok (tag, input) =>
      if tag = 42 then
        match read_link input with
        | .crash => .crash res
        | .err e => .err e res
        | .ok (link, input) => .ok input (res ++ [link])
      else refsGo f .item input res) = references f t res
  rw [show read_u8 (tag :: t) = .ok (tag, t) from rfl]
  show (if tag = 42 then _ else refsGo f .item t res) = references f t res
  rw [if_neg h, references_def]

theorem step_break (f : Nat) (t : Bytes) (res : List Link) :
    references (f + 1) (0xff :: t) res = .err (.UnexpectedCode 0xff) res := rfl

/-! ### Length-resolver lemmas -/

theorem read_len_tiny {n : Nat} (h : n ≤ 0x17) (t : Bytes) : read_len t n = .ok (n, t) := by
  unfold read_len
  rw [if_pos h]

/-! ### Varint lemmas -/

/-- Mathematical value of an LEB128 byte sequence: each byte contributes its
low 7 bits, least significant group first. -/
def lebVal : Bytes → Nat
  | [] => 0
  | b :: l => (b &&& 0x7F) + 128 * lebVal l

theorem lor_mod_two_pow (x y n : Nat) :
    (x ||| y) % 2 ^ n = x % 2 ^ n ||| y % 2 ^ n := by
  apply Nat.eq_of_testBit_eq
  intro i
  simp [Nat.testBit_mod_two_pow, Nat.testBit_or, Bool.and_or_distrib_left]

theorem lor_shiftLeft_eq_add {a : Nat} (b n : Nat) (h : a < 2 ^ n) :
    a ||| b <<< n = a + b <<< n := by
  calc a ||| b <<< n = 2 ^ n * b ||| a := by
        rw [Nat.shiftLeft_eq, Nat.or_comm, Nat.mul_comm]
    _ = 2 ^ n * b + a := (Nat.mul_add_lt_is_or h b).symm
    _ = a + b <<< n := by rw [Nat.shiftLeft_eq, Nat.add_comm, Nat.mul_comm]

/-- Folding one 7-bit group into the accumulator commutes with `lebVal`. -/
theorem lor_lebVal_step (value b shift : Nat) (l : Bytes) :
    value ||| (b &&& 0x7F) <<< shift % 2 ^ 64 ||| lebVal l <<< (shift + 7) % 2 ^ 64 =
      value ||| lebVal (b :: l) <<< shift % 2 ^ 64 := by
  rw [Nat.or_assoc, ← lor_mod_two_pow]
  have hlt : (b &&& 0x7F) <<< shift < 2 ^ (shift + 7) := by
    have hb : b &&& 0x7F < 2 ^ 7 := Nat.lt_of_le_of_lt Nat.and_le_right (by omega)
    calc (b &&& 0x7F) <<< shift = (b &&& 0x7F) * 2 ^ shift := Nat.shiftLeft_eq ..
      _ < 2 ^ 7 * 2 ^ shift := by
          exact Nat.mul_lt_mul_of_lt_of_le hb (Nat.le_refl _) (Nat.two_pow_pos shift)
      _ = 2 ^ (shift + 7) := by rw [← Nat.pow_add, Nat.add_comm]
  rw [lor_shiftLeft_eq_add (lebVal l) (shift + 7) hlt]
  have : (b &&& 0x7F) <<< shift + lebVal l <<< (shift + 7) = lebVal (b :: l) <<< shift := by
    simp only [Nat.shiftLeft_eq, lebVal, Nat.pow_add]
    ring
  rw [this]

/-- Value characterisation of the varint loop: a successful parse consumed a
nonempty group of bytes whose LEB128 value, truncated to 64 bits, is the
result. -/
theorem parse_go_ok_value :
    ∀ (input : Bytes) (value shift v : Nat) (rest : Bytes),
      parse_u64_varint_go value shift input = .ok (v, rest) →
      ∃ pre, input = pre ++ rest ∧ pre ≠ [] ∧
        v = value ||| lebVal pre <<< shift % 2 ^ 64 := by
  intro input
  induction input with
  | nil =>
    intro value shift v rest h
    simp [parse_u64_varint_go] at h
  | cons byte tl ih =>
    intro value shift v rest h
    unfold parse_u64_varint_go at h
    by_cases hc : byte &&& 0x80 = 0
    · rw [if_pos hc] at h
      cases h
      refine ⟨[byte], rfl, by simp, ?_⟩
      simp [lebVal]
    · rw [if_neg hc] at h
      by_cases hs : 64 ≤ shift + 7
      · rw [if_pos hs] at h
        exact absurd h (by simp)
      · rw [if_neg hs] at h
        obtain ⟨pre, hpre, hne, hv⟩ := ih _ _ _ _ h
        refine ⟨byte :: pre, by simp [hpre], by simp, ?_⟩
        rw [hv, lor_lebVal_step]

/-- A byte sequence that the varint decoder consumes exactly: at most nine
continuation bytes followed by one terminating byte. -/
def ValidVarint (vb : Bytes) : Prop :=
  ∃ pre last, vb = pre ++ [last] ∧ pre.length ≤ 9 ∧
    (∀ b ∈ pre, b &&& 0x80 ≠ 0) ∧ last &&& 0x80 = 0

/-- On a valid varint the loop consumes exactly the varint bytes and leaves
the tail untouched, whatever follows. -/
theorem parse_go_valid :
    ∀ (pre : Bytes) (last : Nat) (tail : Bytes) (value shift : Nat),
      (∀ b ∈ pre, b &&& 0x80 ≠ 0) → last &&& 0x80 = 0 → shift + 7 * pre.length < 64 →
      parse_u64_varint_go value shift (pre ++ last :: tail) =
        .ok (value ||| lebVal (pre ++ [last]) <<< shift % 2 ^ 64, tail) := by
  intro pre
  induction pre with
  | nil =>
    intro last tail value shift _ hl _
    unfold parse_u64_varint_go
    simp only [List.nil_append]
    rw [if_pos hl]
    simp [lebVal]
  | cons b pre ih =>
    intro last tail value shift hc hl hs
    have hb : b &&& 0x80 ≠ 0 := hc b (by simp)
    simp only [List.cons_append]
    unfold parse_u64_varint_go
    rw [if_neg hb, if_neg (by simp at hs; omega : ¬64 ≤ shift + 7)]
    rw [ih last tail _ (shift + 7) (fun x hx => hc x (by simp [hx])) hl
      (by simp at hs; omega)]
    rw [lor_lebVal_step]

theorem parse_u64_varint_valid (vb : Bytes) (tail : Bytes) (h : ValidVarint vb) :
    parse_u64_varint (vb ++ tail) = .ok (lebVal vb % 2 ^ 64, tail) := by
  obtain ⟨pre, last, rfl, hlen, hc, hl⟩ := h
  unfold parse_u64_varint
  rw [List.append_assoc, List.singleton_append,
    parse_go_valid pre last tail 0 0 hc hl (by omega)]
  simp

/-- Ten or more leading continuation bytes drive the shift past 63 and the
loop reports `InvalidVarint`. -/
theorem parse_go_cont_err :
    ∀ (bs rest : Bytes) (value shift : Nat),
      bs ≠ [] → (∀ b ∈ bs, b &&& 0x80 ≠ 0) → 64 ≤ shift + 7 * bs.length →
      parse_u64_varint_go value shift (bs ++ rest) = .err .InvalidVarint := by
  intro bs
  induction bs with
  | nil => intro rest value shift hne; exact absurd rfl hne
  | cons b bs ih =>
    intro rest value shift _ hc hs
    have hb : b &&& 0x80 ≠ 0 := hc b (by simp)
    simp only [List.cons_append]
    unfold parse_u64_varint_go
    rw [if_neg hb]
    by_cases h7 : 64 ≤ shift + 7
    · rw [if_pos h7]
    · rw [if_neg h7]
      have hbs : bs ≠ [] := by
        rintro rfl
        simp at hs
        omega
      exact ih rest _ (shift + 7) hbs (fun x hx => hc x (by simp [hx]))
        (by simp at hs ⊢; omega)

/-- The loop can only hit the out-of-bounds `input[0]` when the input is
shorter than the shift budget allows. -/
theorem parse_go_ne_crash :
    ∀ (bs : Bytes) (value shift : Nat), bs ≠ [] → 64 ≤ shift + 7 * bs.length →
      parse_u64_varint_go value shift bs ≠ .crash := by
  intro bs
  induction bs with
  | nil => intro value shift hne; exact absurd rfl hne
  | cons b bs ih =>
    intro value shift _ hs
    unfold parse_u64_varint_go
    by_cases hc : b &&& 0x80 = 0
    · rw [if_pos hc]
      simp
    · rw [if_neg hc]
      by_cases h7 : 64 ≤ shift + 7
      · rw [if_pos h7]
        simp
      · rw [if_neg h7]
        have hbs : bs ≠ [] := by
          rintro rfl
          simp at hs
          omega
        exact ih _ (shift + 7) hbs (by simp at hs ⊢; omega)

/-- Bound on the number of bytes a successful varint parse consumes. -/
theorem parse_go_ok_length :
    ∀ (bs : Bytes) (value shift k v : Nat) (rest : Bytes), shift < 64 → 64 ≤ shift + 7 * k →
      parse_u64_varint_go value shift bs = .ok (v, rest) → bs.length ≤ k + rest.length := by
  intro bs
  induction bs with
  | nil =>
    intro value shift k v rest _ _ h
    simp [parse_u64_varint_go] at h
  | cons b bs ih =>
    intro value shift k v rest hsh hk h
    unfold parse_u64_varint_go at h
    by_cases hc : b &&& 0x80 = 0
    · rw [if_pos hc] at h
      cases h
      simp
      omega
    · rw [if_neg hc] at h
      by_cases h7 : 64 ≤ shift + 7
      · rw [if_pos h7] at h
        exact absurd h (by simp)
      · rw [if_neg h7] at h
        have := ih _ (shift + 7) (k - 1) v rest (by omega) (by omega) h
        simp
        omega

/-! ### Link-parser lemmas -/

/-- Evaluation of `read_link` on a frame whose declared length matches the
CID buffer: the stream layer (tag byte, length byte, exact read) reduces and
the structural validation of the buffer remains. -/
theorem read_link_cid (b0 : Nat) (bs' tail : Bytes) :
    read_link (0x58 :: (bs'.length + 1) :: ((b0 :: bs') ++ tail)) =
      (if b0 ≠ 0 then .err (.InvalidCidPrefix b0)
      else if bs'.length + 1 < 32 then .err .LengthOutOfRange
      else
        match splitAt2 (b0 :: bs') with
        | .crash => .crash
        | .err e => .err e
        | .ok (version_header, rest) =>
          if version_header ≠ [0, 1] then .err .InvalidCidVersion
          else
            match read_link_tail rest with
            | .crash => .crash
            | .err e => .err e
            | .ok ch => .ok (ch, tail)) := by
  have hread : read_bytes ((b0 :: bs') ++ tail) (bs'.length + 1) = .ok (b0 :: bs', tail) := by
    unfold read_bytes
    rw [if_pos (by simp), List.take_left' (by simp), List.drop_left' (by simp)]
  unfold read_link
  simp only [read_u8]
  rw [if_neg (by simp), if_neg (by omega : ¬bs'.length + 1 = 0), hread]
  simp only [List.length_cons]

/-- Evaluation of `read_link_tail` when the codec varint is well formed and
is followed by a 2-byte header and a trailing buffer. -/
theorem read_link_tail_eval (vb : Bytes) (a b : Nat) (hash : Bytes) (hv : ValidVarint vb) :
    read_link_tail (vb ++ a :: b :: hash) =
      (if ([a, b] : Bytes) ≠ [0x1e, 0x20] then .err .InvalidHashAlgorithm
      else if hash.length ≠ 32 then .err .InvalidHashLength
      else .ok (lebVal vb % 2 ^ 64, hash)) := by
  have hsplit : splitAt2 (a :: b :: hash) = .ok ([a, b], hash) := by
    unfold splitAt2
    rw [if_pos (by simp)]
    rfl
  unfold read_link_tail
  rw [parse_u64_varint_valid vb (a :: b :: hash) hv]
  dsimp only
  rw [hsplit]
  dsimp only
  by_cases hmh : ([a, b] : Bytes) ≠ [0x1e, 0x20]
  · rw [if_pos hmh, if_pos hmh]
  · rw [if_neg hmh, if_neg hmh]
    by_cases hh : hash.length ≠ 32
    · rw [if_pos hh, if_pos hh]
    · rw [if_neg hh, if_neg hh]
      unfold toHash32
      rw [if_pos (by omega)]

theorem read_bytes_ok (input : Bytes) (len : Nat) (bytes rest : Bytes)
    (h : read_bytes input len = .ok (bytes, rest)) :
    bytes = input.take len ∧ rest = input.drop len ∧ len ≤ input.length := by
  unfold read_bytes at h
  by_cases hc : len ≤ input.length
  · rw [if_pos hc] at h
    cases h
    exact ⟨rfl, rfl, hc⟩
  · rw [if_neg hc] at h
    exact absurd h (by simp)

/-- The codec varint inside `read_link` runs on a buffer of at least 30
bytes, so it can neither hit the out-of-bounds read nor leave fewer than 2
bytes for the multihash header: the tail parser never panics. -/
theorem read_link_tail_ne_crash (rest : Bytes) (h : 12 ≤ rest.length) :
    read_link_tail rest ≠ .crash := by
  unfold read_link_tail
  cases hp : parse_u64_varint rest with
  | crash =>
    refine absurd hp (parse_go_ne_crash rest 0 0 ?_ (by omega))
    cases rest
    · simp at h
    · simp
  | err e => simp
  | ok a =>
    obtain ⟨codec, rest'⟩ := a
    have hlen : rest.length ≤ 10 + rest'.length :=
      parse_go_ok_length rest 0 0 10 codec rest' (by omega) (by omega) hp
    have hsplit : splitAt2 rest' = .ok (rest'.take 2, rest'.drop 2) := by
      unfold splitAt2
      rw [if_pos (by omega)]
    dsimp only
    rw [hsplit]
    dsimp only
    by_cases hmh : rest'.take 2 ≠ [0x1e, 0x20]
    · rw [if_pos hmh]
      simp
    · rw [if_neg hmh]
      by_cases hh : (rest'.drop 2).length ≠ 32
      · rw [if_pos hh]
        simp
      · rw [if_neg hh]
        unfold toHash32
        rw [if_pos (by omega)]
        simp

/-- `read_link` never panics: every runtime gate of the Rust code protects
the slice operation that follows it. -/
theorem read_link_ne_crash (input : Bytes) : read_link input ≠ .crash := by
  unfold read_link
  cases input with
  | nil => simp [read_u8]
  | cons ty input =>
    simp only [read_u8]
    by_cases hty : ty ≠ 0x58
    · rw [if_pos hty]
      simp
    · rw [if_neg hty]
      cases input with
      | nil => simp [read_u8]
      | cons len input =>
        simp only [read_u8]
        by_cases hlen : len = 0
        · rw [if_pos hlen]
          simp
        · rw [if_neg hlen]
          cases hrb : read_bytes input len with
          | error e => simp
          | ok p =>
            obtain ⟨bytes, input'⟩ := p
            obtain ⟨hb, hrest, hle⟩ := read_bytes_ok input len bytes input' hrb
            have hblen : bytes.length = len := by
              rw [hb, List.length_take]
              omega
            cases bytes with
            | nil => simp at hblen; exact absurd hblen.symm hlen
            | cons b0 bs =>
              dsimp only
              by_cases hb0 : b0 ≠ 0
              · rw [if_pos hb0]
                simp
              · rw [if_neg hb0]
                by_cases h32 : (b0 :: bs).length < 32
                · rw [if_pos h32]
                  simp
                · rw [if_neg h32]
                  have hsplit : splitAt2 (b0 :: bs) =
                      .ok ((b0 :: bs).take 2, (b0 :: bs).drop 2) := by
                    unfold splitAt2
                    rw [if_pos (by omega)]
                  rw [hsplit]
                  dsimp only
                  by_cases hver : (b0 :: bs).take 2 ≠ [0, 1]
                  · rw [if_pos hver]
                    simp
                  · rw [if_neg hver]
                    cases ht : read_link_tail ((b0 :: bs).drop 2) with
                    | crash =>
                      refine absurd ht (read_link_tail_ne_crash _ ?_)
                      simp at h32 ⊢
                      omega
                    | err e => simp
                    | ok ch => simp

/-- Partition of a major byte into the fifteen dispatch classes of the
traversal plus the rejected gaps. -/
theorem byte_cases (b : Nat) :
    b ≤ 0x17 ∨ (b = 0x18 ∨ b = 0x38 ∨ b = 0xf8) ∨ (b = 0x19 ∨ b = 0x39 ∨ b = 0xf9) ∨
    (b = 0x1a ∨ b = 0x3a ∨ b = 0xfa) ∨ (b = 0x1b ∨ b = 0x3b ∨ b = 0xfb) ∨
    (0x20 ≤ b ∧ b ≤ 0x37) ∨ (0x40 ≤ b ∧ b ≤ 0x5b) ∨ (0x60 ≤ b ∧ b ≤ 0x7b) ∨
    (0x80 ≤ b ∧ b ≤ 0x9b) ∨ b = 0x9f ∨ (0xa0 ≤ b ∧ b ≤ 0xbb) ∨ b = 0xbf ∨ b = 0xd8 ∨
    (0xf4 ≤ b ∧ b ≤ 0xf7) ∨
    ((0x1c ≤ b ∧ b ≤ 0x1f) ∨ (0x3c ≤ b ∧ b ≤ 0x3f) ∨ (0x5c ≤ b ∧ b ≤ 0x5f) ∨
     (0x7c ≤ b ∧ b ≤ 0x7f) ∨ (0x9c ≤ b ∧ b ≤ 0x9e) ∨ (0xbc ≤ b ∧ b ≤ 0xbe) ∨
     (0xc0 ≤ b ∧ b ≤ 0xd7) ∨ (0xd9 ≤ b ∧ b ≤ 0xf3) ∨ 0xfc ≤ b) := by
  omega

theorem step_unknown {b : Nat}
    (h : (0x1c ≤ b ∧ b ≤ 0x1f) ∨ (0x3c ≤ b ∧ b ≤ 0x3f) ∨ (0x5c ≤ b ∧ b ≤ 0x5f) ∨
      (0x7c ≤ b ∧ b ≤ 0x7f) ∨ (0x9c ≤ b ∧ b ≤ 0x9e) ∨ (0xbc ≤ b ∧ b ≤ 0xbe) ∨
      (0xc0 ≤ b ∧ b ≤ 0xd7) ∨ (0xd9 ≤ b ∧ b ≤ 0xf3) ∨ 0xfc ≤ b)
    (f : Nat) (t : Bytes) (res : List Link) :
    references (f + 1) (b :: t) res = .err (.UnexpectedCode b) res := by
  rw [references_def, refsGo_item_cons, if_neg (by omega : ¬b ≤ 0x17),
    if_neg (by omega : ¬b = 0x18), if_neg (by omega : ¬b = 0x19),
    if_neg (by omega : ¬b = 0x1a), if_neg (by omega : ¬b = 0x1b),
    if_neg (by omega : ¬(0x20 ≤ b ∧ b ≤ 0x37)),
    if_neg (by omega : ¬b = 0x38), if_neg (by omega : ¬b = 0x39),
    if_neg (by omega : ¬b = 0x3a), if_neg (by omega : ¬b = 0x3b),
    if_neg (by omega : ¬(0x40 ≤ b ∧ b ≤ 0x5b)),
    if_neg (by omega : ¬(0x60 ≤ b ∧ b ≤ 0x7b)),
    if_neg (by omega : ¬(0x80 ≤ b ∧ b ≤ 0x9b)),
    if_neg (by omega : ¬b = 0x9f),
    if_neg (by omega : ¬(0xa0 ≤ b ∧ b ≤ 0xbb)),
    if_neg (by omega : ¬b = 0xbf), if_neg (by omega : ¬b = 0xd8),
    if_neg (by omega : ¬(0xf4 ≤ b ∧ b ≤ 0xf7)),
    if_neg (by omega : ¬b = 0xf8), if_neg (by omega : ¬b = 0xf9),
    if_neg (by omega : ¬b = 0xfa), if_neg (by omega : ¬b = 0xfb)]

/-! ### The output vector is append-only -/

/-- Every traversal outcome carries the caller's vector extended on the
right: nothing is ever removed or overwritten. -/
theorem refsGo_res_extend :
    ∀ (fuel : Nat) (job : Job) (input : Bytes) (res : List Link),
      ∃ extra, resOf (refsGo fuel job input res) = res ++ extra := by
  intro fuel
  induction fuel with
  | zero =>
    intro job input res
    exact ⟨[], by simp [refsGo_zero, resOf]⟩
  | succ f ih =>
    intro job input res
    cases job with
    | item =>
      cases input with
      | nil => exact ⟨[], by simp [refsGo_item_nil, resOf]⟩
      | cons b t =>
        rw [← references_def]
        rcases byte_cases b with h|h|h|h|h|h|h|h|h|h|h|h|h|h|h
        · exact ⟨[], by rw [step_tiny h]; simp [resOf]⟩
        · exact ⟨[], by rw [step_skip1 h]; simp [resOf]⟩
        · exact ⟨[], by rw [step_skip2 h]; simp [resOf]⟩
        · exact ⟨[], by rw [step_skip4 h]; simp [resOf]⟩
        · exact ⟨[], by rw [step_skip8 h]; simp [resOf]⟩
        · exact ⟨[], by rw [step_neg_tiny h.1 h.2]; simp [resOf]⟩
        · rw [step_bstr h.1 h.2]
          cases read_len t (b - 0x40) with
          | error e => exact ⟨[], by simp [resOf]⟩
          | ok p => exact ⟨[], by simp [resOf]⟩
        · rw [step_tstr h.1 h.2]
          cases read_len t (b - 0x60) with
          | error e => exact ⟨[], by simp [resOf]⟩
          | ok p => exact ⟨[], by simp [resOf]⟩
        · rw [step_arr h.1 h.2]
          cases read_len t (b - 0x80) with
          | error e => exact ⟨[], by simp [resOf]⟩
          | ok p => exact ih (.arr p.1) p.2 res
        · subst h
          rw [step_indefArr]
          exact ih .indefArr t res
        · rw [step_map h.1 h.2]
          cases read_len t (b - 0xa0) with
          | error e => exact ⟨[], by simp [resOf]⟩
          | ok p => exact ih (.map p.1) p.2 res
        · subst h
          rw [step_indefMap]
          exact ih .indefMap t res
        · subst h
          cases t with
          | nil => exact ⟨[], by rw [step_tag_nil]; simp [resOf]⟩
          | cons tag t =>
            by_cases htag : tag = 42
            · subst htag
              rw [step_tag42]
              cases read_link t with
              | crash => exact ⟨[], by simp [resOf]⟩
              | err e => exact ⟨[], by simp [resOf]⟩
              | ok p => exact ⟨[p.1], by simp [resOf]⟩
            · rw [step_tag_other htag]
              exact ih .item t res
        · exact ⟨[], by rw [step_simple h.1 h.2]; simp [resOf]⟩
        · exact ⟨[], by rw [step_unknown h]; simp [resOf]⟩
    | arr n =>
      cases n with
      | zero => exact ⟨[], by rw [refsGo_arr_zero]; simp [resOf]⟩
      | succ n =>
        rw [refsGo_arr_succ]
        cases h1 : refsGo f .item input res with
        | crash r =>
          have := ih .item input res
          rw [h1] at this
          exact this
        | fuelOut r =>
          have := ih .item input res
          rw [h1] at this
          exact this
        | err e r =>
          have := ih .item input res
          rw [h1] at this
          exact this
        | ok input' res' =>
          obtain ⟨e1, he1⟩ := ih .item input res
          rw [h1] at he1
          obtain ⟨e2, he2⟩ := ih (.arr n) input' res'
          refine ⟨e1 ++ e2, ?_⟩
          rw [he2]
          simp [resOf] at he1
          rw [he1, List.append_assoc]
    | map n =>
      cases n with
      | zero => exact ⟨[], by rw [refsGo_map_zero]; simp [resOf]⟩
      | succ n =>
        rw [refsGo_map_succ]
        cases h1 : refsGo f .item input res with
        | crash r =>
          have := ih .item input res
          rw [h1] at this
          exact this
        | fuelOut r =>
          have := ih .item input res
          rw [h1] at this
          exact this
        | err e r =>
          have := ih .item input res
          rw [h1] at this
          exact this
        | ok input' res' =>
          obtain ⟨e1, he1⟩ := ih .item input res
          rw [h1] at he1
          simp [resOf] at he1
          dsimp only
          cases h2 : refsGo f .item input' res' with
          | crash r =>
            obtain ⟨e2, he2⟩ := ih .item input' res'
            rw [h2] at he2
            simp [resOf] at he2
            exact ⟨e1 ++ e2, by simp [resOf]; rw [he2, he1, List.append_assoc]⟩
          | fuelOut r =>
            obtain ⟨e2, he2⟩ := ih .item input' res'
            rw [h2] at he2
            simp [resOf] at he2
            exact ⟨e1 ++ e2, by simp [resOf]; rw [he2, he1, List.append_assoc]⟩
          | err e r =>
            obtain ⟨e2, he2⟩ := ih .item input' res'
            rw [h2] at he2
            simp [resOf] at he2
            exact ⟨e1 ++ e2, by simp [resOf]; rw [he2, he1, List.append_assoc]⟩
          | ok input'' res'' =>
            obtain ⟨e2, he2⟩ := ih .item input' res'
            rw [h2] at he2
            simp [resOf] at he2
            obtain ⟨e3, he3⟩ := ih (.map n) input'' res''
            refine ⟨e1 ++ (e2 ++ e3), ?_⟩
            rw [he3, he2, he1]
            simp [List.append_assoc]
    | indefArr =>
      cases input with
      | nil => exact ⟨[], by rw [refsGo_indefArr_nil]; simp [resOf]⟩
      | cons b t =>
        rw [refsGo_indefArr_cons]
        by_cases hb : b = 0xff
        · rw [if_pos hb]
          exact ⟨[], by simp [resOf]⟩
        · rw [if_neg hb]
          cases h1 : refsGo f .item (b :: t) res with
          | crash r =>
            have := ih .item (b :: t) res
            rw [h1] at this
            exact this
          | fuelOut r =>
            have := ih .item (b :: t) res
            rw [h1] at this
            exact this
          | err e r =>
            have := ih .item (b :: t) res
            rw [h1] at this
            exact this
          | ok input' res' =>
            obtain ⟨e1, he1⟩ := ih .item (b :: t) res
            rw [h1] at he1
            simp [resOf] at he1
            obtain ⟨e2, he2⟩ := ih .indefArr input' res'
            refine ⟨e1 ++ e2, ?_⟩
            rw [he2, he1, List.append_assoc]
    | indefMap =>
      cases input with
      | nil => exact ⟨[], by rw [refsGo_indefMap_nil]; simp [resOf]⟩
      | cons b t =>
        rw [refsGo_indefMap_cons]
        by_cases hb : b = 0xff
        · rw [if_pos hb]
          exact ⟨[], by simp [resOf]⟩
        · rw [if_neg hb]
          cases h1 : refsGo f .item (b :: t) res with
          | crash r =>
            have := ih .item (b :: t) res
            rw [h1] at this
            exact this
          | fuelOut r =>
            have := ih .item (b :: t) res
            rw [h1] at this
            exact this
          | err e r =>
            have := ih .item (b :: t) res
            rw [h1] at this
            exact this
          | ok input' res' =>
            obtain ⟨e1, he1⟩ := ih .item (b :: t) res
            rw [h1] at he1
            simp [resOf] at he1
            dsimp only
            cases h2 : refsGo f .item input' res' with
            | crash r =>
              obtain ⟨e2, he2⟩ := ih .item input' res'
              rw [h2] at he2
              simp [resOf] at he2
              exact ⟨e1 ++ e2, by simp [resOf]; rw [he2, he1, List.append_assoc]⟩
            | fuelOut r =>
              obtain ⟨e2, he2⟩ := ih .item input' res'
              rw [h2] at he2
              simp [resOf] at he2
              exact ⟨e1 ++ e2, by simp [resOf]; rw [he2, he1, List.append_assoc]⟩
            | err e r =>
              obtain ⟨e2, he2⟩ := ih .item input' res'
              rw [h2] at he2
              simp [resOf] at he2
              exact ⟨e1 ++ e2, by simp [resOf]; rw [he2, he1, List.append_assoc]⟩
            | ok input'' res'' =>
              obtain ⟨e2, he2⟩ := ih .item input' res'
              rw [h2] at he2
              simp [resOf] at he2
              obtain ⟨e3, he3⟩ := ih .indefMap input'' res''
              refine ⟨e1 ++ (e2 ++ e3), ?_⟩
              rw [he3, he2, he1]
              simp [List.append_assoc]

/-! ### Truncation simulation: primitives -/

theorem arr_succ_next {f n : Nat} {input r1 : Bytes} {res res1 : List Link}
    (h1 : refsGo f .item input res = .ok r1 res1) :
    refsGo (f + 1) (.arr (n + 1)) input res = refsGo f (.arr n) r1 res1 := by
  rw [refsGo_arr_succ, h1]

theorem map_succ_next {f n : Nat} {input r1 r2 : Bytes} {res res1 res2 : List Link}
    (h1 : refsGo f .item input res = .ok r1 res1)
    (h2 : refsGo f .item r1 res1 = .ok r2 res2) :
    refsGo (f + 1) (.map (n + 1)) input res = refsGo f (.map n) r2 res2 := by
  rw [refsGo_map_succ, h1]
  dsimp only
  rw [h2]

theorem indefArr_break {f : Nat} {t : Bytes} {res : List Link} :
    refsGo (f + 1) .indefArr (0xff :: t) res = .ok t res := by
  rw [refsGo_indefArr_cons, if_pos rfl]

theorem indefArr_next {f : Nat} {b : Nat} {t r1 : Bytes} {res res1 : List Link}
    (hb : b ≠ 0xff) (h1 : refsGo f .item (b :: t) res = .ok r1 res1) :
    refsGo (f + 1) .indefArr (b :: t) res = refsGo f .indefArr r1 res1 := by
  rw [refsGo_indefArr_cons, if_neg hb, h1]

theorem indefMap_break {f : Nat} {t : Bytes} {res : List Link} :
    refsGo (f + 1) .indefMap (0xff :: t) res = .ok t res := by
  rw [refsGo_indefMap_cons, if_pos rfl]

theorem indefMap_next {f : Nat} {b : Nat} {t r1 r2 : Bytes} {res res1 res2 : List Link}
    (hb : b ≠ 0xff) (h1 : refsGo f .item (b :: t) res = .ok r1 res1)
    (h2 : refsGo f .item r1 res1 = .ok r2 res2) :
    refsGo (f + 1) .indefMap (b :: t) res = refsGo f .indefMap r2 res2 := by
  rw [refsGo_indefMap_cons, if_neg hb, h1]
  dsimp only
  rw [h2]

/-- A self-delimiting child item: in any context and with any fuel of at
least `fuel`, the traversal consumes exactly `c` and appends exactly `l`. -/
def ChildSpec (fuel : Nat) (c : Bytes) (l : List Link) : Prop :=
  ∀ f, fuel ≤ f → ∀ t res, references f (c ++ t) res = .ok t (res ++ l)

/-- Concatenated encodings of a list of children. -/
def bufsOf : List (Bytes × List Link) → Bytes
  | [] => []
  | p :: ch => p.1 ++ bufsOf ch

/-- Concatenated links of a list of children, in order. -/
def linksOf : List (Bytes × List Link) → List Link
  | [] => []
  | p :: ch => p.2 ++ linksOf ch

theorem childSpec_ne_nil {fuel : Nat} {c : Bytes} {l : List Link}
    (h : ChildSpec fuel c l) : c ≠ [] := by
  rintro rfl
  have h0 := h fuel (Nat.le_refl _) [] []
  cases fuel with
  | zero =>
    rw [references_def, refsGo_zero] at h0
    exact absurd h0 (by simp)
  | succ f =>
    simp only [List.nil_append] at h0
    rw [references_nil] at h0
    exact absurd h0 (by simp)

theorem childSpec_head {fuel : Nat} {b : Nat} {c : Bytes} {l : List Link}
    (h : ChildSpec fuel (b :: c) l) : b ≠ 0xff := by
  rintro rfl
  have h0 := h (fuel + 1) (by omega) [] []
  rw [List.cons_append, step_break] at h0
  exact absurd h0 (by simp)

theorem refsArr_children :
    ∀ (children : List (Bytes × List Link)) (fuel f : Nat),
      (∀ p ∈ children, ChildSpec fuel p.1 p.2) → fuel + children.length + 1 ≤ f →
      ∀ (rest : Bytes) (res : List Link),
        refsGo f (.arr children.length) (bufsOf children ++ rest) res =
          .ok rest (res ++ linksOf children) := by
  intro children
  induction children with
  | nil =>
    intro fuel f _ hf rest res
    obtain ⟨f', rfl⟩ : ∃ g, f = g + 1 := ⟨f - 1, by omega⟩
    simp [bufsOf, linksOf, refsGo_arr_zero]
  | cons p ch ih =>
    intro fuel f hspec hf rest res
    obtain ⟨f', rfl⟩ : ∃ g, f = g + 1 := ⟨f - 1, by omega⟩
    obtain ⟨c, l⟩ := p
    have hchild : references f' (c ++ (bufsOf ch ++ rest)) res = .ok (bufsOf ch ++ rest)
        (res ++ l) := (hspec (c, l) (by simp)) f' (by simp at hf; omega) _ res
    have hin : bufsOf ((c, l) :: ch) ++ rest = c ++ (bufsOf ch ++ rest) := by
      simp [bufsOf, List.append_assoc]
    rw [show (List.length ((c, l) :: ch)) = ch.length + 1 from by simp, hin,
      arr_succ_next (references_def _ _ _ ▸ hchild),
      ih fuel f' (fun q hq => hspec q (by simp [hq])) (by simp at hf; omega) rest (res ++ l)]
    simp [linksOf, List.append_assoc]

theorem refsIndefArr_children :
    ∀ (children : List (Bytes × List Link)) (fuel f : Nat),
      (∀ p ∈ children, ChildSpec fuel p.1 p.2) → fuel + children.length + 1 ≤ f →
      ∀ (rest : Bytes) (res : List Link),
        refsGo f .indefArr (bufsOf children ++ 0xff :: rest) res =
          .ok rest (res ++ linksOf children) := by
  intro children
  induction children with
  | nil =>
    intro fuel f _ hf rest res
    obtain ⟨f', rfl⟩ : ∃ g, f = g + 1 := ⟨f - 1, by omega⟩
    simp [bufsOf, linksOf, indefArr_break]
  | cons p ch ih =>
    intro fuel f hspec hf rest res
    obtain ⟨f', rfl⟩ : ∃ g, f = g + 1 := ⟨f - 1, by omega⟩
    obtain ⟨c, l⟩ := p
    have hcs : ChildSpec fuel c l := hspec (c, l) (by simp)
    obtain ⟨b, c', rfl⟩ : ∃ b c', c = b :: c' := by
      cases c with
      | nil => exact absurd rfl (childSpec_ne_nil hcs)
      | cons b c' => exact ⟨b, c', rfl⟩
    have hb : b ≠ 0xff := childSpec_head hcs
    have hchild : references f' ((b :: c') ++ (bufsOf ch ++ 0xff :: rest)) res =
        .ok (bufsOf ch ++ 0xff :: rest) (res ++ l) :=
      hcs f' (by simp at hf; omega) _ res
    have hin : bufsOf ((b :: c', l) :: ch) ++ 0xff :: rest =
        b :: (c' ++ (bufsOf ch ++ 0xff :: rest)) := by
      simp [bufsOf, List.append_assoc]
    rw [hin, indefArr_next hb (references_def _ _ _ ▸ hchild),
      ih fuel f' (fun q hq => hspec q (by simp [hq])) (by simp at hf; omega) rest (res ++ l)]
    simp [linksOf, List.append_assoc]

theorem refsMap_children :
    ∀ (n : Nat) (children : List (Bytes × List Link)) (fuel f : Nat),
      children.length = 2 * n →
      (∀ p ∈ children, ChildSpec fuel p.1 p.2) → fuel + n + 1 ≤ f →
      ∀ (rest : Bytes) (res : List Link),
        refsGo f (.map n) (bufsOf children ++ rest) res =
          .ok rest (res ++ linksOf children) := by
  intro n
  induction n with
  | zero =>
    intro children fuel f hlen _ hf rest res
    obtain ⟨f', rfl⟩ : ∃ g, f = g + 1 := ⟨f - 1, by omega⟩
    have : children = [] := List.length_eq_zero.mp (by omega)
    subst this
    simp [bufsOf, linksOf, refsGo_map_zero]
  | succ n ih =>
    intro children fuel f hlen hspec hf rest res
    obtain ⟨f', rfl⟩ : ∃ g, f = g + 1 := ⟨f - 1, by omega⟩
    obtain ⟨p1, p2, ch, rfl⟩ : ∃ p1 p2 ch, children = p1 :: p2 :: ch := by
      cases children with
      | nil => simp at hlen
      | cons p1 rest1 =>
        cases rest1 with
        | nil => simp at hlen; omega
        | cons p2 ch => exact ⟨p1, p2, ch, rfl⟩
    obtain ⟨c1, l1⟩ := p1
    obtain ⟨c2, l2⟩ := p2
    have h1 : references f' (c1 ++ (c2 ++ (bufsOf ch ++ rest))) res =
        .ok (c2 ++ (bufsOf ch ++ rest)) (res ++ l1) :=
      (hspec (c1, l1) (by simp)) f' (by simp at hf; omega) _ res
    have h2 : references f' (c2 ++ (bufsOf ch ++ rest)) (res ++ l1) =
        .ok (bufsOf ch ++ rest) ((res ++ l1) ++ l2) :=
      (hspec (c2, l2) (by simp)) f' (by simp at hf; omega) _ (res ++ l1)
    have hin : bufsOf ((c1, l1) :: (c2, l2) :: ch) ++ rest =
        c1 ++ (c2 ++ (bufsOf ch ++ rest)) := by
      simp [bufsOf, List.append_assoc]
    rw [hin, map_succ_next (references_def _ _ _ ▸ h1) (references_def _ _ _ ▸ h2),
      ih ch fuel f' (by simp at hlen; omega) (fun q hq => hspec q (by simp [hq]))
        (by simp at hf; omega) rest ((res ++ l1) ++ l2)]
    simp [linksOf, List.append_assoc]

theorem refsIndefMap_children :
    ∀ (n : Nat) (children : List (Bytes × List Link)) (fuel f : Nat),
      children.length = 2 * n →
      (∀ p ∈ children, ChildSpec fuel p.1 p.2) → fuel + n + 1 ≤ f →
      ∀ (rest : Bytes) (res : List Link),
        refsGo f .indefMap (bufsOf children ++ 0xff :: rest) res =
          .ok rest (res ++ linksOf children) := by
  intro n
  induction n with
  | zero =>
    intro children fuel f hlen _ hf rest res
    obtain ⟨f', rfl⟩ : ∃ g, f = g + 1 := ⟨f - 1, by omega⟩
    have : children = [] := List.length_eq_zero.mp (by omega)
    subst this
    simp [bufsOf, linksOf, indefMap_break]
  | succ n ih =>
    intro children fuel f hlen hspec hf rest res
    obtain ⟨f', rfl⟩ : ∃ g, f = g + 1 := ⟨f - 1, by omega⟩
    obtain ⟨p1, p2, ch, rfl⟩ : ∃ p1 p2 ch, children = p1 :: p2 :: ch := by
      cases children with
      | nil => simp at hlen
      | cons p1 rest1 =>
        cases rest1 with
        | nil => simp at hlen; omega
        | cons p2 ch => exact ⟨p1, p2, ch, rfl⟩
    obtain ⟨c1, l1⟩ := p1
    obtain ⟨c2, l2⟩ := p2
    have hcs1 : ChildSpec fuel c1 l1 := hspec (c1, l1) (by simp)
    obtain ⟨b, c1', rfl⟩ : ∃ b c1', c1 = b :: c1' := by
      cases c1 with
      | nil => exact absurd rfl (childSpec_ne_nil hcs1)
      | cons b c1' => exact ⟨b, c1', rfl⟩
    have hb : b ≠ 0xff := childSpec_head hcs1
    have h1 : references f' ((b :: c1') ++ (c2 ++ (bufsOf ch ++ 0xff :: rest))) res =
        .ok (c2 ++ (bufsOf ch ++ 0xff :: rest)) (res ++ l1) :=
      hcs1 f' (by simp at hf; omega) _ res
    have h2 : references f' (c2 ++ (bufsOf ch ++ 0xff :: rest)) (res ++ l1) =
        .ok (bufsOf ch ++ 0xff :: rest) ((res ++ l1) ++ l2) :=
      (hspec (c2, l2) (by simp)) f' (by simp at hf; omega) _ (res ++ l1)
    have hin : bufsOf ((b :: c1', l1) :: (c2, l2) :: ch) ++ 0xff :: rest =
        b :: (c1' ++ (c2 ++ (bufsOf ch ++ 0xff :: rest))) := by
      simp [bufsOf, List.append_assoc]
    rw [hin, indefMap_next hb (references_def _ _ _ ▸ h1) (references_def _ _ _ ▸ h2),
      ih ch fuel f' (by simp at hlen; omega) (fun q hq => hspec q (by simp [hq]))
        (by simp at hf; omega) rest ((res ++ l1) ++ l2)]
    simp [linksOf, List.append_assoc]

/-! ### Skippable top-level items -/

theorem read_exact_exact {k : Nat} (lb rest : Bytes) (h : lb.length = k) :
    read_exact k (lb ++ rest) = .ok (beVal lb, rest) := by
  unfold read_exact
  rw [if_pos (by simp; omega), List.take_left' h, List.drop_left' h]

theorem beVal_foldl_lt :
    ∀ (l : Bytes) (acc : Nat), (∀ b ∈ l, b < 256) →
      List.foldl (fun a b => a * 256 + b) acc l < (acc + 1) * 256 ^ l.length := by
  intro l
  induction l with
  | nil => intro acc _; simp
  | cons b t ih =>
    intro acc hb
    have h1 : List.foldl (fun a b => a * 256 + b) (acc * 256 + b) t <
        (acc * 256 + b + 1) * 256 ^ t.length := ih _ (fun x hx => hb x (by simp [hx]))
    have h2 : (acc * 256 + b + 1) * 256 ^ t.length ≤ (acc + 1) * 256 ^ (t.length + 1) := by
      have hblt : b < 256 := hb b (by simp)
      have : acc * 256 + b + 1 ≤ (acc + 1) * 256 := by nlinarith
      calc (acc * 256 + b + 1) * 256 ^ t.length ≤ (acc + 1) * 256 * 256 ^ t.length := by
            exact Nat.mul_le_mul_right _ this
        _ = (acc + 1) * 256 ^ (t.length + 1) := by ring
    simp only [List.foldl_cons, List.length_cons]
    omega

/-- The length field of an encoded string: the additional-information
selector, the bytes of the length field, and the length value they denote. -/
inductive StrLen : Nat → Bytes → Nat → Prop where
  | tiny (ai : Nat) : ai ≤ 0x17 → StrLen ai [] ai
  | one (x : Nat) : StrLen 0x18 [x] x
  | two (x y : Nat) : StrLen 0x19 [x, y] (beVal [x, y])
  | four (x1 x2 x3 x4 : Nat) : StrLen 0x1a [x1, x2, x3, x4] (beVal [x1, x2, x3, x4])
  | eight (x1 x2 x3 x4 x5 x6 x7 x8 : Nat) :
      (∀ b ∈ [x1, x2, x3, x4, x5, x6, x7, x8], b < 256) →
      StrLen 0x1b [x1, x2, x3, x4, x5, x6, x7, x8] (beVal [x1, x2, x3, x4, x5, x6, x7, x8])

theorem strLen_read_len {ai : Nat} {lb : Bytes} {n : Nat} (h : StrLen ai lb n)
    (rest : Bytes) : read_len (lb ++ rest) ai = .ok (n, rest) := by
  cases h with
  | tiny ai hai =>
    simp only [List.nil_append]
    exact read_len_tiny hai rest
  | one x => rfl
  | two x y =>
    unfold read_len
    norm_num
    exact read_exact_exact [x, y] rest rfl
  | four x1 x2 x3 x4 =>
    unfold read_len
    norm_num
    exact read_exact_exact [x1, x2, x3, x4] rest rfl
  | eight x1 x2 x3 x4 x5 x6 x7 x8 hb =>
    unfold read_len
    norm_num
    rw [show read_u64 (x1 :: x2 :: x3 :: x4 :: x5 :: x6 :: x7 :: x8 :: rest) =
      .ok (beVal [x1, x2, x3, x4, x5, x6, x7, x8], rest) from
      read_exact_exact [x1, x2, x3, x4, x5, x6, x7, x8] rest rfl]
    dsimp only
    have h1 := beVal_foldl_lt [x1, x2, x3, x4, x5, x6, x7, x8] 0 hb
    have h2 : beVal [x1, x2, x3, x4, x5, x6, x7, x8] < 2 ^ 64 := by
      unfold beVal
      calc List.foldl (fun a b => a * 256 + b) 0 [x1, x2, x3, x4, x5, x6, x7, x8]
          < (0 + 1) * 256 ^ ([x1, x2, x3, x4, x5, x6, x7, x8] : Bytes).length := h1
        _ = 2 ^ 64 := by norm_num
    rw [if_neg (by omega)]

/-- A complete top-level data item that carries no links and causes no
recursion: integers, simple values, floats, byte strings and text strings. -/
inductive SimpleItem : Bytes → Prop where
  | uintTiny (b : Nat) : b ≤ 0x17 → SimpleItem [b]
  | nintTiny (b : Nat) : 0x20 ≤ b → b ≤ 0x37 → SimpleItem [b]
  | simple (b : Nat) : 0xf4 ≤ b → b ≤ 0xf7 → SimpleItem [b]
  | extra1 (b x : Nat) : b = 0x18 ∨ b = 0x38 ∨ b = 0xf8 → SimpleItem [b, x]
  | extra2 (b x y : Nat) : b = 0x19 ∨ b = 0x39 ∨ b = 0xf9 → SimpleItem [b, x, y]
  | extra4 (b x1 x2 x3 x4 : Nat) : b = 0x1a ∨ b = 0x3a ∨ b = 0xfa →
      SimpleItem [b, x1, x2, x3, x4]
  | extra8 (b x1 x2 x3 x4 x5 x6 x7 x8 : Nat) : b = 0x1b ∨ b = 0x3b ∨ b = 0xfb →
      SimpleItem [b, x1, x2, x3, x4, x5, x6, x7, x8]
  | str (base ai : Nat) (lb content : Bytes) : base = 0x40 ∨ base = 0x60 →
      StrLen ai lb content.length → SimpleItem ((base + ai) :: (lb ++ content))

theorem strLen_ai_le {ai : Nat} {lb : Bytes} {n : Nat} (h : StrLen ai lb n) : ai ≤ 0x1b := by
  cases h <;> omega

theorem simple_item_skipped {it : Bytes} (hit : SimpleItem it) (f : Nat) (tail : Bytes)
    (res : List Link) : references (f + 1) (it ++ tail) res = .ok tail res := by
  cases hit with
  | uintTiny b h => exact step_tiny h f tail res
  | nintTiny b h1 h2 => exact step_neg_tiny h1 h2 f tail res
  | simple b h1 h2 => exact step_simple h1 h2 f tail res
  | extra1 b x h => rw [List.cons_append, step_skip1 h]; rfl
  | extra2 b x y h => rw [List.cons_append, step_skip2 h]; rfl
  | extra4 b x1 x2 x3 x4 h => rw [List.cons_append, step_skip4 h]; rfl
  | extra8 b x1 x2 x3 x4 x5 x6 x7 x8 h => rw [List.cons_append, step_skip8 h]; rfl
  | str base ai lb content hbase hsl =>
    have hai : ai ≤ 0x1b := strLen_ai_le hsl
    have hread : read_len (lb ++ (content ++ tail)) ai = .ok (content.length, content ++ tail) :=
      strLen_read_len hsl (content ++ tail)
    rcases hbase with hb | hb <;> subst hb
    · rw [List.cons_append, step_bstr (by omega) (by omega),
        show 0x40 + ai - 0x40 = ai from by omega, List.append_assoc, hread]
      dsimp only
      rw [List.drop_left]
    · rw [List.cons_append, step_tstr (by omega) (by omega),
        show 0x60 + ai - 0x60 = ai from by omega, List.append_assoc, hread]
      dsimp only
      rw [List.drop_left]

/-! ### Claims -/

/-- C4 (corrected), counterexample: a ten-byte varint whose final byte
contributes bits at offset 63 is accepted, but the `u64` accumulator
silently truncates the high bits: the decoder returns 0 although the
mathematical LEB128 value of the consumed bytes is `2 ^ 64`.  The shift
guard therefore does not prevent silent truncation. -/
theorem c4_counterexample :
    parse_u64_varint [0x80, 0x80, 0x80, 0x80, 0x80, 0x80, 0x80, 0x80, 0x80, 0x02] =
      .ok (0, []) ∧
    lebVal [0x80, 0x80, 0x80, 0x80, 0x80, 0x80, 0x80, 0x80, 0x80, 0x02] = 2 ^ 64 ∧
    (0 : Nat) ≠ 2 ^ 64 := by
  refine ⟨by decide, by decide, by decide⟩

/-- C4 (amended): whenever the varint decoder returns `Ok`, the returned
`u64` equals the mathematical value of the consumed LEB128 bytes reduced
modulo `2 ^ 64`; equality with the exact value holds only when that value
fits in 64 bits. -/
theorem c4_varint_value_mod (input : Bytes) (v : Nat) (rest : Bytes)
    (h : parse_u64_varint input = .ok (v, rest)) :
    ∃ pre, input = pre ++ rest ∧ pre ≠ [] ∧ v = lebVal pre % 2 ^ 64 := by
  obtain ⟨pre, hpre, hne, hv⟩ := parse_go_ok_value input 0 0 v rest h
  exact ⟨pre, hpre, hne, by simpa using hv⟩

theorem c4_varint_value_mod_witness :
    ∃ pre, ([0x05] : Bytes) = pre ++ [] ∧ pre ≠ [] ∧ 5 = lebVal pre % 2 ^ 64 :=
  c4_varint_value_mod [0x05] 5 [] (by decide)

/-- C5 (confirmed): every call to `references` only ever appends to the
caller-supplied output vector: whatever the outcome (success, error, panic
or fuel exhaustion in the model), the vector's prior contents survive as a
prefix, so entries appended before a failure remain present. -/
theorem c5_output_append_only (fuel : Nat) (input : Bytes) (res : List Link) :
    ∃ extra, resOf (references fuel input res) = res ++ extra :=
  refsGo_res_extend fuel .item input res

/-- C7 (confirmed): an input whose top-level item is an integer, a simple
value, a float, a byte string or a text string is skipped successfully and
the output vector is returned unchanged. -/
theorem c7_simple_item_no_links (it : Bytes) (hit : SimpleItem it) (f : Nat)
    (tail : Bytes) (res : List Link) :
    references (f + 1) (it ++ tail) res = .ok tail res :=
  simple_item_skipped hit f tail res

theorem c7_simple_item_no_links_witness :
    references 1 ([0x45, 1, 2, 3, 4, 5] ++ []) [] = .ok [] [] :=
  c7_simple_item_no_links [0x45, 1, 2, 3, 4, 5]
    (SimpleItem.str 0x40 5 [] [1, 2, 3, 4, 5] (.inl rfl) (StrLen.tiny 5 (by decide))) 0 [] []

/-- C9 (confirmed): ten continuation bytes drive the accumulated shift to
64 and the decoder reports `InvalidVarint` without reading further. -/
theorem c9_ten_continuation_bytes (bs rest : Bytes) (h10 : bs.length = 10)
    (hc : ∀ b ∈ bs, b &&& 0x80 ≠ 0) :
    parse_u64_varint (bs ++ rest) = .err .InvalidVarint :=
  parse_go_cont_err bs rest 0 0 (by rintro rfl; simp at h10) hc (by omega)

theorem c9_ten_continuation_bytes_witness :
    parse_u64_varint ([0x80, 0x80, 0x80, 0x80, 0x80, 0x80, 0x80, 0x80, 0x80, 0x80] ++ [1]) =
      .err .InvalidVarint :=
  c9_ten_continuation_bytes [0x80, 0x80, 0x80, 0x80, 0x80, 0x80, 0x80, 0x80, 0x80, 0x80] [1]
    (by decide) (by decide)

/-- C10 (confirmed): `read_link` never panics.  Every slice operation of
the Rust code — `bytes[0]`, both `split_at(2)`, the varint's `input[0]`
and the final 32-byte conversion — sits behind a runtime gate that makes
it in-bounds, so the parser always returns `Ok` or a `ParseError`. -/
theorem c10_read_link_never_panics (input : Bytes) :
    (∃ e, read_link input = .err e) ∨ ∃ r, read_link input = .ok r := by
  cases h : read_link input with
  | crash => exact absurd h (read_link_ne_crash input)
  | err e => exact .inl ⟨e, rfl⟩
  | ok r => exact .inr ⟨r, rfl⟩

/-- C1 (confirmed): a well-formed tag-42 link — marker byte 0, version
byte 1, a valid varint codec, multihash header `{0x1e, 0x20}` and exactly
32 hash bytes — is accepted, and exactly one `(codec, hash)` pair is
appended whose codec is the decoded varint and whose hash is those
32 bytes. -/
theorem c1_wellformed_link_appended (f : Nat) (vb hash : Bytes) (res : List Link)
    (hv : ValidVarint vb) (hh : hash.length = 32) :
    parse_u64_varint (vb ++ 0x1e :: 0x20 :: hash) =
      .ok (lebVal vb % 2 ^ 64, 0x1e :: 0x20 :: hash) ∧
    references (f + 1)
      (0xd8 :: 42 :: 0x58 :: (2 + vb.length + 2 + 32) ::
        (0 :: 1 :: (vb ++ 0x1e :: 0x20 :: hash))) res =
      .ok [] (res ++ [(lebVal vb % 2 ^ 64, hash)]) := by
  refine ⟨parse_u64_varint_valid vb (0x1e :: 0x20 :: hash) hv, ?_⟩
  have hlen2 : 2 + vb.length + 2 + 32 = (1 :: (vb ++ 0x1e :: 0x20 :: hash)).length + 1 := by
    simp only [List.length_cons, List.length_append, hh]
    omega
  have hread := read_link_cid 0 (1 :: (vb ++ 0x1e :: 0x20 :: hash)) []
  simp only [List.append_nil] at hread
  have hsplit : splitAt2 (0 :: 1 :: (vb ++ 0x1e :: 0x20 :: hash)) =
      .ok ([0, 1], vb ++ 0x1e :: 0x20 :: hash) := by
    unfold splitAt2
    rw [if_pos (by simp)]
    rfl
  have hrl : read_link (0x58 :: ((1 :: (vb ++ 0x1e :: 0x20 :: hash)).length + 1) ::
      (0 :: 1 :: (vb ++ 0x1e :: 0x20 :: hash))) = .ok ((lebVal vb % 2 ^ 64, hash), []) := by
    rw [hread, if_neg (by simp),
      if_neg (by simp only [List.length_cons, List.length_append, hh]; omega), hsplit]
    dsimp only
    rw [if_neg (by simp), read_link_tail_eval vb 0x1e 0x20 hash hv, if_neg (by simp),
      if_neg (by omega)]
  rw [step_tag42, hlen2, hrl]

theorem c1_wellformed_link_appended_witness :
    parse_u64_varint ([0x71] ++ 0x1e :: 0x20 :: List.replicate 32 0) =
      .ok (lebVal [0x71] % 2 ^ 64, 0x1e :: 0x20 :: List.replicate 32 0) ∧
    references 1
      (0xd8 :: 42 :: 0x58 :: (2 + [0x71].length + 2 + 32) ::
        (0 :: 1 :: ([0x71] ++ 0x1e :: 0x20 :: List.replicate 32 0))) [] =
      .ok [] ([] ++ [(lebVal [0x71] % 2 ^ 64, List.replicate 32 0)]) :=
  c1_wellformed_link_appended 0 [0x71] (List.replicate 32 0) []
    ⟨[], 0x71, rfl, by decide, by simp, by decide⟩ (by decide)

/-- C3 (corrected), counterexample: in a link the code accepts (the shape
of the repository's own test vector), the two bytes *after* the leading
zero marker are `[1, 0x71]`, not `[0, 1]` — yet parsing succeeds with the
codec `0x71`.  The version gate compares the first two bytes of the
buffer, marker included, not the two bytes after the marker. -/
theorem c3_counterexample :
    ((0 :: 1 :: 0x71 :: 0x1e :: 0x20 :: List.replicate 32 0).drop 1).take 2 ≠ [0, 1] ∧
    references 1 (0xd8 :: 42 :: 0x58 :: 37 ::
        (0 :: 1 :: 0x71 :: 0x1e :: 0x20 :: List.replicate 32 0)) [] =
      .ok [] [(0x71, List.replicate 32 0)] := by
  refine ⟨by decide, by decide⟩

/-- C3 (amended): with the earlier gates passing (nonzero declared length,
zero marker byte, buffer of at least 32 bytes), the link parser proceeds
to the codec varint exactly when the first two buffer bytes — the marker
and the byte after it — equal `{0, 1}`, and fails with
`InvalidCidVersion` otherwise. -/
theorem c3_version_pair_front (bs' tail : Bytes) (h : 31 ≤ bs'.length) :
    read_link (0x58 :: (bs'.length + 1) :: ((0 :: bs') ++ tail)) =
      if (0 :: bs').take 2 = [0, 1] then
        (match read_link_tail (bs'.drop 1) with
        | .crash => .crash
        | .err e => .err e
        | .ok ch => .ok (ch, tail))
      else .err .InvalidCidVersion := by
  rw [read_link_cid, if_neg (by simp), if_neg (by simp; omega)]
  have hsplit : splitAt2 (0 :: bs') = .ok ((0 :: bs').take 2, (0 :: bs').drop 2) := by
    unfold splitAt2
    rw [if_pos (by simp; omega)]
  rw [hsplit]
  dsimp only
  by_cases hver : (0 :: bs').take 2 = [0, 1]
  · rw [if_neg (not_not_intro hver), if_pos hver]
    rfl
  · rw [if_pos hver, if_neg hver]

theorem c3_version_pair_front_witness :
    read_link (0x58 :: ((1 :: 0x71 :: 0x1e :: 0x20 :: List.replicate 32 0).length + 1) ::
        ((0 :: 1 :: 0x71 :: 0x1e :: 0x20 :: List.replicate 32 0) ++ [7])) =
      if (0 :: 1 :: 0x71 :: 0x1e :: 0x20 :: List.replicate 32 0).take 2 = [0, 1] then
        (match read_link_tail ((1 :: 0x71 :: 0x1e :: 0x20 :: List.replicate 32 0).drop 1) with
        | .crash => .crash
        | .err e => .err e
        | .ok ch => .ok (ch, [7]))
      else .err .InvalidCidVersion :=
  c3_version_pair_front (1 :: 0x71 :: 0x1e :: 0x20 :: List.replicate 32 0) [7] (by decide)

/-- C8 (corrected), counterexample: mutating the *first* byte of the
version pair (the zero marker) of an otherwise-valid link yields
`InvalidCidPrefix`, not `InvalidCidVersion` as the claim demands. -/
theorem c8_counterexample :
    read_link (0x58 :: 37 :: (2 :: 1 :: 0x71 :: 0x1e :: 0x20 :: List.replicate 32 0)) =
      .err (.InvalidCidPrefix 2) ∧
    (PRes.err (.InvalidCidPrefix 2) : PRes ((Nat × Hash) × Bytes)) ≠
      .err .InvalidCidVersion := by
  refine ⟨by decide, by decide⟩

/-- C8 (amended): for an otherwise-valid link frame, (1) any multihash
header other than `{0x1e, 0x20}` yields `InvalidHashAlgorithm`; (2) a
second version byte other than 1 yields `InvalidCidVersion`, while a
nonzero first byte yields `InvalidCidPrefix` instead; (3) a hash of any
length other than 32 yields `InvalidHashLength` when the buffer still
reaches 32 bytes, and `LengthOutOfRange` when it falls below 32. -/
theorem c8_link_mutations (vb hash : Bytes) (a b w v : Nat) (hv : ValidVarint vb)
    (hh : hash.length = 32) :
    ((a, b) ≠ (0x1e, 0x20) →
      read_link (0x58 :: (4 + vb.length + 32) :: (0 :: 1 :: (vb ++ a :: b :: hash))) =
        .err .InvalidHashAlgorithm) ∧
    (v ≠ 1 →
      read_link (0x58 :: (4 + vb.length + 32) :: (0 :: v :: (vb ++ 0x1e :: 0x20 :: hash))) =
        .err .InvalidCidVersion) ∧
    (w ≠ 0 →
      read_link (0x58 :: (4 + vb.length + 32) :: (w :: 1 :: (vb ++ 0x1e :: 0x20 :: hash))) =
        .err (.InvalidCidPrefix w)) ∧
    (∀ hash2 : Bytes, hash2.length ≠ 32 →
      read_link (0x58 :: (4 + vb.length + hash2.length) ::
          (0 :: 1 :: (vb ++ 0x1e :: 0x20 :: hash2))) =
        if 32 ≤ 4 + vb.length + hash2.length then .err .InvalidHashLength
        else .err .LengthOutOfRange) := by
  obtain ⟨vb1, hvb1⟩ : ∃ m, vb.length = m + 1 := by
    obtain ⟨pre, last, rfl, -, -, -⟩ := hv
    exact ⟨pre.length, by simp⟩
  refine ⟨?_, ?_, ?_, ?_⟩
  · intro hmh
    have hlen2 : 4 + vb.length + 32 = (1 :: (vb ++ a :: b :: hash)).length + 1 := by
      simp only [List.length_cons, List.length_append, hh]
      omega
    have hread := read_link_cid 0 (1 :: (vb ++ a :: b :: hash)) []
    simp only [List.append_nil] at hread
    have hsplit : splitAt2 (0 :: 1 :: (vb ++ a :: b :: hash)) =
        .ok ([0, 1], vb ++ a :: b :: hash) := by
      unfold splitAt2
      rw [if_pos (by simp)]
      rfl
    rw [hlen2, hread, if_neg (by simp),
      if_neg (by simp only [List.length_cons, List.length_append, hh]; omega), hsplit]
    dsimp only
    rw [if_neg (by simp), read_link_tail_eval vb a b hash hv,
      if_pos (by simpa using hmh)]
  · intro hv1
    have hlen2 : 4 + vb.length + 32 = (v :: (vb ++ 0x1e :: 0x20 :: hash)).length + 1 := by
      simp only [List.length_cons, List.length_append, hh]
      omega
    have hread := read_link_cid 0 (v :: (vb ++ 0x1e :: 0x20 :: hash)) []
    simp only [List.append_nil] at hread
    have hsplit : splitAt2 (0 :: v :: (vb ++ 0x1e :: 0x20 :: hash)) =
        .ok ([0, v], vb ++ 0x1e :: 0x20 :: hash) := by
      unfold splitAt2
      rw [if_pos (by simp)]
      rfl
    rw [hlen2, hread, if_neg (by simp),
      if_neg (by simp only [List.length_cons, List.length_append, hh]; omega), hsplit]
    dsimp only
    rw [if_pos (by simpa using hv1)]
  · intro hw
    have hlen2 : 4 + vb.length + 32 = (1 :: (vb ++ 0x1e :: 0x20 :: hash)).length + 1 := by
      simp only [List.length_cons, List.length_append, hh]
      omega
    have hread := read_link_cid w (1 :: (vb ++ 0x1e :: 0x20 :: hash)) []
    simp only [List.append_nil] at hread
    rw [hlen2, hread, if_pos hw]
  · intro hash2 hh2
    have hlen2 : 4 + vb.length + hash2.length =
        (1 :: (vb ++ 0x1e :: 0x20 :: hash2)).length + 1 := by
      simp only [List.length_cons, List.length_append]
      omega
    have hread := read_link_cid 0 (1 :: (vb ++ 0x1e :: 0x20 :: hash2)) []
    simp only [List.append_nil] at hread
    by_cases h32 : 32 ≤ 4 + vb.length + hash2.length
    · have hsplit : splitAt2 (0 :: 1 :: (vb ++ 0x1e :: 0x20 :: hash2)) =
          .ok ([0, 1], vb ++ 0x1e :: 0x20 :: hash2) := by
        unfold splitAt2
        rw [if_pos (by simp)]
        rfl
      rw [hlen2, hread, if_neg (by simp),
        if_neg (by simp only [List.length_cons, List.length_append]; omega), hsplit]
      dsimp only
      rw [if_neg (by simp), read_link_tail_eval vb 0x1e 0x20 hash2 hv, if_neg (by simp),
        if_pos hh2, if_pos (by simp only [List.length_cons, List.length_append]; omega)]
    · rw [hlen2, hread, if_neg (by simp),
        if_pos (by simp only [List.length_cons, List.length_append]; omega),
        if_neg (by simp only [List.length_cons, List.length_append]; omega)]

theorem c8_link_mutations_witness :
    read_link (0x58 :: (4 + [0x71].length + 32) ::
        (0 :: 1 :: ([0x71] ++ 0x1f :: 0x20 :: List.replicate 32 0))) =
      .err .InvalidHashAlgorithm ∧
    read_link (0x58 :: (4 + [0x71].length + 32) ::
        (0 :: 3 :: ([0x71] ++ 0x1e :: 0x20 :: List.replicate 32 0))) =
      .err .InvalidCidVersion ∧
    read_link (0x58 :: (4 + [0x71].length + 32) ::
        (2 :: 1 :: ([0x71] ++ 0x1e :: 0x20 :: List.replicate 32 0))) =
      .err (.InvalidCidPrefix 2) ∧
    read_link (0x58 :: (4 + [0x71].length + (List.replicate 31 (0 : Nat)).length) ::
        (0 :: 1 :: ([0x71] ++ 0x1e :: 0x20 :: List.replicate 31 0))) =
      (if 32 ≤ 4 + [0x71].length + (List.replicate 31 (0 : Nat)).length then
        PRes.err .InvalidHashLength
      else .err .LengthOutOfRange) := by
  obtain ⟨h1, h2, h3, h4⟩ := c8_link_mutations [0x71] (List.replicate 32 0) 0x1f 0x20 2 3
    ⟨[], 0x71, rfl, by decide, by simp, by decide⟩ (by decide)
  exact ⟨h1 (by decide), h2 (by decide), h3 (by decide), h4 (List.replicate 31 0) (by decide)⟩

/-- C6 (confirmed): for any sequence of self-delimiting children, the
indefinite-length array (`0x9f`, children, `0xff`) behaves exactly like
the definite-length array whose declared count is the number of children —
under *any* of the count encodings `read_len` accepts: inline (headers
`0x80`-`0x97`) or a 1/2/4/8-byte length field (headers `0x98`-`0x9b`) —
and the indefinite-length map (`0xbf`) exactly like the definite-length
map with the matching pair count (headers `0xa0`-`0xbb` likewise): same
success, same remainder, same appended links. -/
theorem c6_definite_indefinite_equiv (fuel : Nat) (children : List (Bytes × List Link))
    (rest : Bytes) (res : List Link)
    (hspec : ∀ p ∈ children, ChildSpec fuel p.1 p.2) :
    (∀ ai lb, StrLen ai lb children.length →
      references (fuel + children.length + 2)
          ((0x80 + ai) :: (lb ++ (bufsOf children ++ rest))) res =
        .ok rest (res ++ linksOf children) ∧
      references (fuel + children.length + 2)
          (0x9f :: (bufsOf children ++ 0xff :: rest)) res =
        .ok rest (res ++ linksOf children)) ∧
    (∀ n ai lb, children.length = 2 * n → StrLen ai lb n →
      references (fuel + children.length + 2)
          ((0xa0 + ai) :: (lb ++ (bufsOf children ++ rest))) res =
        .ok rest (res ++ linksOf children) ∧
      references (fuel + children.length + 2)
          (0xbf :: (bufsOf children ++ 0xff :: rest)) res =
        .ok rest (res ++ linksOf children)) := by
  rw [show fuel + children.length + 2 = (fuel + children.length + 1) + 1 from rfl]
  constructor
  · intro ai lb hsl
    have hai : ai ≤ 0x1b := strLen_ai_le hsl
    constructor
    · rw [step_arr (by omega) (by omega),
        show 0x80 + ai - 0x80 = ai from by omega,
        strLen_read_len hsl (bufsOf children ++ rest)]
      exact refsArr_children children fuel (fuel + children.length + 1) hspec (by omega)
        rest res
    · rw [step_indefArr]
      exact refsIndefArr_children children fuel (fuel + children.length + 1) hspec (by omega)
        rest res
  · intro n ai lb hn hsl
    have hai : ai ≤ 0x1b := strLen_ai_le hsl
    constructor
    · rw [step_map (by omega) (by omega),
        show 0xa0 + ai - 0xa0 = ai from by omega,
        strLen_read_len hsl (bufsOf children ++ rest)]
      exact refsMap_children n children fuel (fuel + children.length + 1) hn hspec
        (by omega) rest res
    · rw [step_indefMap]
      exact refsIndefMap_children n children fuel (fuel + children.length + 1) hn hspec
        (by omega) rest res

theorem c6_definite_indefinite_equiv_witness :
    (references (1 + ([([0x05], []), ([0x06], [])] : List (Bytes × List Link)).length + 2)
        ((0x80 + 0x18) :: ([2] ++ (bufsOf [([0x05], []), ([0x06], [])] ++ [0x07]))) [] =
      .ok [0x07] ([] ++ linksOf [([0x05], []), ([0x06], [])]) ∧
    references (1 + ([([0x05], []), ([0x06], [])] : List (Bytes × List Link)).length + 2)
        (0x9f :: (bufsOf [([0x05], []), ([0x06], [])] ++ 0xff :: [0x07])) [] =
      .ok [0x07] ([] ++ linksOf [([0x05], []), ([0x06], [])])) ∧
    (references (1 + ([([0x05], []), ([0x06], [])] : List (Bytes × List Link)).length + 2)
        ((0xa0 + 0x18) :: ([1] ++ (bufsOf [([0x05], []), ([0x06], [])] ++ [0x07]))) [] =
      .ok [0x07] ([] ++ linksOf [([0x05], []), ([0x06], [])]) ∧
    references (1 + ([([0x05], []), ([0x06], [])] : List (Bytes × List Link)).length + 2)
        (0xbf :: (bufsOf [([0x05], []), ([0x06], [])] ++ 0xff :: [0x07])) [] =
      .ok [0x07] ([] ++ linksOf [([0x05], []), ([0x06], [])])) := by
  have hspec : ∀ p ∈ ([([0x05], []), ([0x06], [])] : List (Bytes × List Link)),
      ChildSpec 1 p.1 p.2 := by
    intro p hp
    have hstep : ∀ b : Nat, b ≤ 0x17 → ChildSpec 1 [b] [] := by
      intro b hb f hf t res
      obtain ⟨f', rfl⟩ : ∃ g, f = g + 1 := ⟨f - 1, by omega⟩
      simp only [List.cons_append, List.nil_append]
      rw [step_tiny hb]
      simp
    simp only [List.mem_cons, List.not_mem_nil, or_false] at hp
    rcases hp with rfl | rfl
    · exact hstep 0x05 (by decide)
    · exact hstep 0x06 (by decide)
  have H := c6_definite_indefinite_equiv 1 [([0x05], []), ([0x06], [])] [0x07] [] hspec
  exact ⟨H.1 0x18 [2] (StrLen.one 2), H.2 1 0x18 [1] (by decide) (StrLen.one 1)⟩
